import Mathlib

/-!
Shallow embedding of `src/images/crop_whitespace.py` (`remove_background` and
its inner helpers `is_near_white`, `is_bg`, `enqueue_if_bg`, the flood-fill
loop, the transparency pass, and the `getbbox`/`crop` trim), together with
theorems about the claims of the specification.

Machine integers are modelled as `Nat` (all channel values are 0–255 in PIL and
all arithmetic here stays non-negative; `255 - tol` uses truncated subtraction,
which agrees with Python's `channel >= 255 - tol` for non-negative channels).
The `deque` is a list used at the front (popleft) and appended at the back; the
2-D boolean `visited` grid is the list of coordinates currently marked true.
The flood-fill loop is written with explicit fuel; `2*w*h` fuel is proved
sufficient (each pixel is enqueued at most once).
-/

namespace CropWhitespace

/-- A 4-channel RGBA pixel, each channel an 8-bit value modelled as `Nat`. -/
structure Pixel where
  r : Nat
  g : Nat
  b : Nat
  a : Nat
deriving DecidableEq, Repr

/-- An image buffer: a width, a height and the pixel grid, addressed `pix x y`
with `0 ≤ x < w`, `0 ≤ y < h` (values outside the grid are irrelevant junk). -/
structure Img where
  w : Nat
  h : Nat
  pix : Nat → Nat → Pixel

/-- `TOLERANCE = 15`, the module-level default tolerance. -/
def TOLERANCE : Nat := 15

/-- `img.convert("RGB")` followed by `convert("RGBA")`: drops any input alpha
and re-adds a fully opaque alpha of 255.  The RGB intermediate used for the
corner samples has the same RGB channels, so a single conversion models both. -/
def toRGBA (img : Img) : Img :=
  { img with pix := fun x y => { img.pix x y with a := 255 } }

/-- `is_near_white(pixel)`: every RGB channel `>= 255 - tol` (alpha ignored). -/
def is_near_white (tol : Nat) (p : Pixel) : Bool :=
  decide (255 - tol ≤ p.r) && decide (255 - tol ≤ p.g) && decide (255 - tol ≤ p.b)

/-- The four corner samples `(0,0), (w-1,0), (0,h-1), (w-1,h-1)` of the
RGB-converted image, in source order. -/
def corner_pixels (img : Img) : List Pixel :=
  [(toRGBA img).pix 0 0, (toRGBA img).pix (img.w - 1) 0,
   (toRGBA img).pix 0 (img.h - 1), (toRGBA img).pix (img.w - 1) (img.h - 1)]

/-- `bg_candidates`: the near-white corner samples.  (The Python source builds
a set; a list with possible duplicates is equivalent for every use, since the
only consumer quantifies existentially over the members.) -/
def bg_candidates (img : Img) (tol : Nat) : List Pixel :=
  (corner_pixels img).filter (is_near_white tol)

/-- One candidate comparison inside `is_bg`: `all(abs(pixel[i]-bg[i]) <= tol
for i in range(3))`. -/
def close_to (tol : Nat) (bg p : Pixel) : Bool :=
  decide (Nat.dist p.r bg.r ≤ tol) && decide (Nat.dist p.g bg.g ≤ tol) &&
    decide (Nat.dist p.b bg.b ≤ tol)

/-- `is_bg(pixel)`: close to some corner candidate, or near-white fallback. -/
def is_bg (tol : Nat) (cands : List Pixel) (p : Pixel) : Bool :=
  cands.any (fun bg => close_to tol bg p) || is_near_white tol p

/-- The background test the flood fill applies at a coordinate of the RGBA
buffer (`is_bg(pixels[x, y])`). -/
def bgAt (img : Img) (tol : Nat) (c : Nat × Nat) : Bool :=
  is_bg tol (bg_candidates img tol) ((toRGBA img).pix c.1 c.2)

/-- The flood-fill state: the coordinates marked in the `visited` grid, and the
pending `deque` (front = next popleft, appends at the back). -/
structure FillState where
  visited : List (Nat × Nat)
  queue : List (Nat × Nat)

/-- `enqueue_if_bg(x, y)` / the loop-body check: in bounds, not yet visited,
and background-classified; then mark visited and append to the queue. -/
def enqueue_if_bg (w h : Nat) (bgp : Nat × Nat → Bool) (st : FillState)
    (c : Nat × Nat) : FillState :=
  if c.1 < w ∧ c.2 < h ∧ c ∉ st.visited ∧ bgp c = true then
    { visited := c :: st.visited, queue := st.queue ++ [c] }
  else st

/-- The border coordinates seeded, in source order: `(x,0)` and `(x,h-1)` for
each `x`, then `(0,y)` and `(w-1,y)` for each `y`. -/
def borderSeeds (w h : Nat) : List (Nat × Nat) :=
  ((List.range w).map fun x => [(x, 0), (x, h - 1)]).flatten ++
    ((List.range h).map fun y => [(0, y), (w - 1, y)]).flatten

/-- Seeding pass: `enqueue_if_bg` over every border coordinate, from the empty
visited grid and empty queue. -/
def seedState (w h : Nat) (bgp : Nat × Nat → Bool) : FillState :=
  (borderSeeds w h).foldl (enqueue_if_bg w h bgp) { visited := [], queue := [] }

/-- The four neighbour coordinates `(x+1,y), (x-1,y), (x,y+1), (x,y-1)` in
source order; a `-1` that would go negative in Python fails its `0 <= _` bound
check there, so it is omitted here (`Nat` has no negatives). -/
def nbrs (c : Nat × Nat) : List (Nat × Nat) :=
  [(c.1 + 1, c.2)] ++ (if c.1 = 0 then [] else [(c.1 - 1, c.2)]) ++
    [(c.1, c.2 + 1)] ++ (if c.2 = 0 then [] else [(c.1, c.2 - 1)])

/-- One iteration of `while q:`: popleft a coordinate and run the neighbour
check (identical to `enqueue_if_bg`) on its four neighbours. -/
def fillStep (w h : Nat) (bgp : Nat × Nat → Bool) (st : FillState) : FillState :=
  match st.queue with
  | [] => st
  | c :: rest => (nbrs c).foldl (enqueue_if_bg w h bgp) { visited := st.visited, queue := rest }

/-- The `while q:` loop, with explicit fuel; it stops as soon as the queue is
empty (the fuel `2*w*h` used below is proved sufficient). -/
def fillRun (w h : Nat) (bgp : Nat × Nat → Bool) : Nat → FillState → FillState
  | 0, st => st
  | n + 1, st =>
    match st.queue with
    | [] => st
    | _ :: _ => fillRun w h bgp n (fillStep w h bgp st)

/-- The final flood-fill state for a grid and a background predicate: seed the
border, then run the loop (fuel `2*w*h`, proved sufficient below). -/
def floodState (w h : Nat) (bgp : Nat × Nat → Bool) : FillState :=
  fillRun w h bgp (2 * w * h) (seedState w h bgp)

/-- The final flood-fill state for an image. -/
def floodFinal (img : Img) (tol : Nat) : FillState :=
  floodState img.w img.h (bgAt img tol)

/-- The visited mask produced by the flood fill: the coordinates marked true. -/
def flood_visited (img : Img) (tol : Nat) : List (Nat × Nat) :=
  (floodFinal img tol).visited

/-- The transparency pass: for every visited pixel write `(r, g, b, 0)`,
leaving every other pixel untouched. -/
def applyAlpha (img : Img) (vis : List (Nat × Nat)) : Img :=
  { img with
    pix := fun x y =>
      if (x, y) ∈ vis then { img.pix x y with a := 0 } else img.pix x y }

/-- All grid coordinates of a `w × h` image. -/
def allCoords (w h : Nat) : List (Nat × Nat) :=
  ((List.range w).map fun x => (List.range h).map fun y => (x, y)).flatten

/-- The coordinates whose alpha is non-zero (the support `getbbox` encloses). -/
def opaqueList (img : Img) : List (Nat × Nat) :=
  (allCoords img.w img.h).filter fun c => decide ((img.pix c.1 c.2).a ≠ 0)

/-- `alpha.getbbox()`: `None` when the alpha band is all zero, else the
smallest `(left, upper, right, lower)` rectangle (right/lower exclusive)
containing every non-zero-alpha pixel. -/
def getbbox (img : Img) : Option (Nat × Nat × Nat × Nat) :=
  match opaqueList img with
  | [] => none
  | c :: cs =>
    some (((c :: cs).map Prod.fst).foldl min c.1,
      ((c :: cs).map Prod.snd).foldl min c.2,
      ((c :: cs).map Prod.fst).foldl max 0 + 1,
      ((c :: cs).map Prod.snd).foldl max 0 + 1)

/-- `rgba.crop((l, t, r, b))`: the `(r-l) × (b-t)` sub-buffer with origin at
`(l, t)`. -/
def cropImg (img : Img) (l t r b : Nat) : Img :=
  { w := r - l, h := b - t, pix := fun x y => img.pix (x + l) (y + t) }

/-- `remove_background(img, tol)`: corner sampling, skip when no near-white
corner exists, flood fill, transparency pass, and bounding-box trim.  When
`getbbox` is `None` (everything transparent) the Python `if bbox:` guard skips
the crop and the full transparent buffer is returned. -/
def remove_background (img : Img) (tol : Nat) : Option Img :=
  if bg_candidates img tol = [] then none
  else
    match getbbox (applyAlpha (toRGBA img) (flood_visited img tol)) with
    | none => some (applyAlpha (toRGBA img) (flood_visited img tol))
    | some (l, t, r, b) =>
      some (cropImg (applyAlpha (toRGBA img) (flood_visited img tol)) l t r b)

/-! ## Specification-side definitions

`Adj` and `ReachesG` formalise the spec's notion of a 4-connected path of
background-classified pixels from a background-classified border pixel; they
are written from the specification's words, to be compared with the flood-fill
code above. -/

/-- 4-connectivity: two coordinates sharing an edge (up/down/left/right). -/
def Adj (c c' : Nat × Nat) : Prop :=
  (c'.1 = c.1 + 1 ∧ c'.2 = c.2) ∨ (c.1 = c'.1 + 1 ∧ c'.2 = c.2) ∨
    (c'.1 = c.1 ∧ c'.2 = c.2 + 1) ∨ (c'.1 = c.1 ∧ c.2 = c'.2 + 1)

/-- `ReachesG w h bgp c`: there is a path of 4-connected coordinates, each in
bounds and classified as background by `bgp`, from some border coordinate
(`y = 0`, `y = h-1`, `x = 0` or `x = w-1`, itself background-classified) to
`c`. -/
inductive ReachesG (w h : Nat) (bgp : Nat × Nat → Bool) : Nat × Nat → Prop where
  | border (c : Nat × Nat) : c.1 < w → c.2 < h →
      (c.2 = 0 ∨ c.2 = h - 1 ∨ c.1 = 0 ∨ c.1 = w - 1) → bgp c = true →
      ReachesG w h bgp c
  | step (c c' : Nat × Nat) : ReachesG w h bgp c → Adj c c' → c'.1 < w →
      c'.2 < h → bgp c' = true → ReachesG w h bgp c'

/-- `Reaches img tol x y`: the path property of the spec, instantiated with the
image's own background classifier. -/
def Reaches (img : Img) (tol : Nat) (x y : Nat) : Prop :=
  ReachesG img.w img.h (bgAt img tol) (x, y)

/-! ## Invariants of the flood-fill state -/

/-- Structural invariants of the flood-fill state: the visited list and queue
hold no duplicates, visited coordinates are in bounds, and every queued
coordinate is already marked visited. -/
structure GoodState (w h : Nat) (st : FillState) : Prop where
  nodupV : st.visited.Nodup
  nodupQ : st.queue.Nodup
  bounds : ∀ c ∈ st.visited, c.1 < w ∧ c.2 < h
  qsub : ∀ c ∈ st.queue, c ∈ st.visited

/-- Closure: every visited coordinate that is no longer pending in the queue
already has all of its in-bounds background neighbours visited. -/
def QClosed (w h : Nat) (bgp : Nat × Nat → Bool) (st : FillState) : Prop :=
  ∀ c ∈ st.visited, c ∉ st.queue →
    ∀ n ∈ nbrs c, n.1 < w → n.2 < h → bgp n = true → n ∈ st.visited

/-! ## Concrete test images and executable checkers -/

/-- A 10×10 all-white image (the spec's `EmptyAfterRemoval` scenario). -/
def whiteImg10 : Img := ⟨10, 10, fun _ _ => ⟨255, 255, 255, 255⟩⟩

/-- A 10×10 image with a 1-pixel white border and an 8×8 solid red interior. -/
def borderImg10 : Img :=
  ⟨10, 10, fun x y =>
    if 1 ≤ x ∧ x ≤ 8 ∧ 1 ≤ y ∧ y ≤ 8 then ⟨255, 0, 0, 255⟩
    else ⟨255, 255, 255, 255⟩⟩

/-- A 2×2 all-white image (small witness input). -/
def whiteImg2 : Img := ⟨2, 2, fun _ _ => ⟨255, 255, 255, 255⟩⟩

/-- A 1×1 all-black image (no near-white corner). -/
def blackImg1 : Img := ⟨1, 1, fun _ _ => ⟨0, 0, 0, 255⟩⟩

/-- A 3×3 image whose centre pixel is near-white but enclosed by a dark ring,
with white corners: the centre is never visited (no border path). -/
def ringImg3 : Img :=
  ⟨3, 3, fun x y =>
    if x = 1 ∧ y = 1 then ⟨250, 250, 250, 255⟩
    else if x = 0 ∧ y = 0 then ⟨255, 255, 255, 255⟩
    else ⟨10, 10, 10, 255⟩⟩

/-- Executable check for the all-white 10×10 run: the result is present (not
the absent/`None` signal) and is a full 10×10 buffer all of whose pixels have
alpha 0. -/
def whiteImg10_check : Bool :=
  match remove_background whiteImg10 15 with
  | none => false
  | some o =>
    o.w == 10 && o.h == 10 &&
      ((List.range o.w).all fun x => (List.range o.h).all fun y =>
        (o.pix x y).a == 0)

/-- Executable check for the bordered 10×10 run: the result is an 8×8 buffer
every pixel of which is fully opaque red `(255, 0, 0, 255)`. -/
def borderImg10_check : Bool :=
  match remove_background borderImg10 15 with
  | none => false
  | some o =>
    o.w == 8 && o.h == 8 &&
      ((List.range o.w).all fun x => (List.range o.h).all fun y =>
        o.pix x y == (⟨255, 0, 0, 255⟩ : Pixel))

/-- Default image (used only to name computed outputs in closed statements). -/
def dImg : Img := ⟨0, 0, fun _ _ => ⟨0, 0, 0, 0⟩⟩

/-! ## Lemmas: a single `enqueue_if_bg` call -/

theorem enq_visited_sub (w h : Nat) (bgp : Nat × Nat → Bool) (st : FillState)
    (c : Nat × Nat) : st.visited ⊆ (enqueue_if_bg w h bgp st c).visited := by
  unfold enqueue_if_bg
  split
  · exact fun d hd => List.mem_cons_of_mem _ hd
  · exact fun d hd => hd

theorem enq_queue_sub (w h : Nat) (bgp : Nat × Nat → Bool) (st : FillState)
    (c : Nat × Nat) : st.queue ⊆ (enqueue_if_bg w h bgp st c).queue := by
  unfold enqueue_if_bg
  split
  · exact fun d hd => List.mem_append_left _ hd
  · exact fun d hd => hd

theorem enq_visited_cases (w h : Nat) (bgp : Nat × Nat → Bool) (st : FillState)
    (c d : Nat × Nat) (hd : d ∈ (enqueue_if_bg w h bgp st c).visited) :
    d ∈ st.visited ∨ (d = c ∧ c.1 < w ∧ c.2 < h ∧ bgp c = true) := by
  unfold enqueue_if_bg at hd
  split at hd
  case isTrue hg =>
    rcases List.mem_cons.mp hd with h | h
    · exact Or.inr ⟨h, hg.1, hg.2.1, hg.2.2.2⟩
    · exact Or.inl h
  case isFalse => exact Or.inl hd

theorem enq_new_in_queue (w h : Nat) (bgp : Nat × Nat → Bool) (st : FillState)
    (c d : Nat × Nat) (hd : d ∈ (enqueue_if_bg w h bgp st c).visited) :
    d ∈ st.visited ∨ d ∈ (enqueue_if_bg w h bgp st c).queue := by
  unfold enqueue_if_bg at hd ⊢
  by_cases hg : c.1 < w ∧ c.2 < h ∧ c ∉ st.visited ∧ bgp c = true
  · rw [if_pos hg] at hd ⊢
    rcases List.mem_cons.mp hd with h | h
    · subst h
      exact Or.inr (List.mem_append_right _ (List.mem_singleton_self _))
    · exact Or.inl h
  · rw [if_neg hg] at hd
    exact Or.inl hd

theorem enq_mem_visited (w h : Nat) (bgp : Nat × Nat → Bool) (st : FillState)
    (c : Nat × Nat) (h1 : c.1 < w) (h2 : c.2 < h) (hb : bgp c = true) :
    c ∈ (enqueue_if_bg w h bgp st c).visited := by
  unfold enqueue_if_bg
  split
  case isTrue => exact List.mem_cons_self _ _
  case isFalse hg =>
    by_contra hc
    exact hg ⟨h1, h2, hc, hb⟩

theorem enq_good (w h : Nat) (bgp : Nat × Nat → Bool) (st : FillState)
    (c : Nat × Nat) (hg : GoodState w h st) :
    GoodState w h (enqueue_if_bg w h bgp st c) := by
  unfold enqueue_if_bg
  split
  case isTrue hc =>
    have hcq : c ∉ st.queue := fun hq => hc.2.2.1 (hg.qsub c hq)
    refine ⟨List.nodup_cons.mpr ⟨hc.2.2.1, hg.nodupV⟩, ?_, ?_, ?_⟩
    · refine hg.nodupQ.append (List.nodup_singleton c) ?_
      intro a ha hb
      rw [List.mem_singleton] at hb
      subst hb
      exact hcq ha
    · intro d hd
      rcases List.mem_cons.mp hd with rfl | hmem
      · exact ⟨hc.1, hc.2.1⟩
      · exact hg.bounds d hmem
    · intro d hd
      rcases List.mem_append.mp hd with hmem | hmem
      · exact List.mem_cons_of_mem _ (hg.qsub d hmem)
      · rw [List.mem_singleton] at hmem
        subst hmem
        exact List.mem_cons_self _ _
  case isFalse => exact hg

theorem enq_balance (w h : Nat) (bgp : Nat × Nat → Bool) (st : FillState)
    (c : Nat × Nat) :
    (enqueue_if_bg w h bgp st c).visited.length + st.queue.length =
      (enqueue_if_bg w h bgp st c).queue.length + st.visited.length := by
  unfold enqueue_if_bg
  split
  · simp only [List.length_cons, List.length_append, List.length_nil]
    omega
  · omega

theorem enq_visited_len_mono (w h : Nat) (bgp : Nat × Nat → Bool)
    (st : FillState) (c : Nat × Nat) :
    st.visited.length ≤ (enqueue_if_bg w h bgp st c).visited.length := by
  unfold enqueue_if_bg
  split
  · exact Nat.le_succ _
  · exact Nat.le_refl _

/-! ## Lemmas: folding `enqueue_if_bg` over a list of coordinates -/

theorem fold_visited_sub (w h : Nat) (bgp : Nat × Nat → Bool)
    (l : List (Nat × Nat)) : ∀ st : FillState,
    st.visited ⊆ (l.foldl (enqueue_if_bg w h bgp) st).visited := by
  induction l with
  | nil => exact fun st d hd => hd
  | cons a l ih =>
    intro st d hd
    exact ih (enqueue_if_bg w h bgp st a) (enq_visited_sub w h bgp st a hd)

theorem fold_queue_sub (w h : Nat) (bgp : Nat × Nat → Bool)
    (l : List (Nat × Nat)) : ∀ st : FillState,
    st.queue ⊆ (l.foldl (enqueue_if_bg w h bgp) st).queue := by
  induction l with
  | nil => exact fun st d hd => hd
  | cons a l ih =>
    intro st d hd
    exact ih (enqueue_if_bg w h bgp st a) (enq_queue_sub w h bgp st a hd)

theorem fold_visited_len_mono (w h : Nat) (bgp : Nat × Nat → Bool)
    (l : List (Nat × Nat)) : ∀ st : FillState,
    st.visited.length ≤ (l.foldl (enqueue_if_bg w h bgp) st).visited.length := by
  induction l with
  | nil => exact fun st => Nat.le_refl _
  | cons a l ih =>
    intro st
    exact Nat.le_trans (enq_visited_len_mono w h bgp st a)
      (ih (enqueue_if_bg w h bgp st a))

theorem fold_good (w h : Nat) (bgp : Nat × Nat → Bool)
    (l : List (Nat × Nat)) : ∀ st : FillState, GoodState w h st →
    GoodState w h (l.foldl (enqueue_if_bg w h bgp) st) := by
  induction l with
  | nil => exact fun st hg => hg
  | cons a l ih =>
    intro st hg
    exact ih (enqueue_if_bg w h bgp st a) (enq_good w h bgp st a hg)

theorem fold_balance (w h : Nat) (bgp : Nat × Nat → Bool)
    (l : List (Nat × Nat)) : ∀ st : FillState,
    (l.foldl (enqueue_if_bg w h bgp) st).visited.length + st.queue.length =
      (l.foldl (enqueue_if_bg w h bgp) st).queue.length + st.visited.length := by
  induction l with
  | nil => exact fun st => Nat.add_comm _ _
  | cons a l ih =>
    intro st
    have h1 := ih (enqueue_if_bg w h bgp st a)
    have h2 := enq_balance w h bgp st a
    simp only [List.foldl_cons]
    omega

theorem fold_mem_visited (w h : Nat) (bgp : Nat × Nat → Bool)
    (l : List (Nat × Nat)) : ∀ (st : FillState) (c : Nat × Nat), c ∈ l →
    c.1 < w → c.2 < h → bgp c = true →
    c ∈ (l.foldl (enqueue_if_bg w h bgp) st).visited := by
  induction l with
  | nil =>
    intro st c hc
    exact absurd hc (List.not_mem_nil c)
  | cons a l ih =>
    intro st c hc h1 h2 hb
    rcases List.mem_cons.mp hc with rfl | hc
    · exact fold_visited_sub w h bgp l _ (enq_mem_visited w h bgp st c h1 h2 hb)
    · exact ih _ c hc h1 h2 hb

theorem fold_visited_cases (w h : Nat) (bgp : Nat × Nat → Bool)
    (l : List (Nat × Nat)) : ∀ (st : FillState) (d : Nat × Nat),
    d ∈ (l.foldl (enqueue_if_bg w h bgp) st).visited →
    d ∈ st.visited ∨ (d ∈ l ∧ d.1 < w ∧ d.2 < h ∧ bgp d = true) := by
  induction l with
  | nil => exact fun st d hd => Or.inl hd
  | cons a l ih =>
    intro st d hd
    rcases ih _ d hd with hcase | ⟨hm, hrest⟩
    · rcases enq_visited_cases w h bgp st a d hcase with hmem | ⟨rfl, h1, h2, hb⟩
      · exact Or.inl hmem
      · exact Or.inr ⟨List.mem_cons_self _ _, h1, h2, hb⟩
    · exact Or.inr ⟨List.mem_cons_of_mem _ hm, hrest⟩

theorem fold_new_in_queue (w h : Nat) (bgp : Nat × Nat → Bool)
    (l : List (Nat × Nat)) : ∀ (st : FillState) (d : Nat × Nat),
    d ∈ (l.foldl (enqueue_if_bg w h bgp) st).visited →
    d ∈ st.visited ∨ d ∈ (l.foldl (enqueue_if_bg w h bgp) st).queue := by
  induction l with
  | nil => exact fun st d hd => Or.inl hd
  | cons a l ih =>
    intro st d hd
    rcases ih _ d hd with hcase | hcase
    · rcases enq_new_in_queue w h bgp st a d hcase with hmem | hmem
      · exact Or.inl hmem
      · exact Or.inr (fold_queue_sub w h bgp l _ hmem)
    · exact Or.inr hcase

/-! ## Lemmas: neighbours, border seeds and the coordinate grid -/

theorem adj_of_mem_nbrs (c d : Nat × Nat) (hd : d ∈ nbrs c) : Adj c d := by
  rcases c with ⟨x, y⟩
  rcases d with ⟨u, v⟩
  unfold nbrs at hd
  unfold Adj
  simp only [List.mem_append, List.mem_cons, List.not_mem_nil, or_false,
    Prod.mk.injEq] at hd ⊢
  split_ifs at hd <;> simp_all <;> omega

theorem mem_nbrs_of_adj (c d : Nat × Nat) (ha : Adj c d) : d ∈ nbrs c := by
  rcases c with ⟨x, y⟩
  rcases d with ⟨u, v⟩
  unfold nbrs
  unfold Adj at ha
  simp only [List.mem_append, List.mem_cons, List.not_mem_nil, or_false,
    Prod.mk.injEq] at ha ⊢
  rcases ha with ⟨h1, h2⟩ | ⟨h1, h2⟩ | ⟨h1, h2⟩ | ⟨h1, h2⟩ <;>
    split_ifs <;> simp_all

theorem mem_borderSeeds_pos (w h : Nat) (c : Nat × Nat) (hc : c ∈ borderSeeds w h) :
    c.2 = 0 ∨ c.2 = h - 1 ∨ c.1 = 0 ∨ c.1 = w - 1 := by
  rcases c with ⟨x, y⟩
  simp only [borderSeeds, List.mem_append, List.mem_flatten, List.mem_map,
    List.mem_range] at hc
  rcases hc with ⟨l, ⟨a, _, rfl⟩, hm⟩ | ⟨l, ⟨a, _, rfl⟩, hm⟩ <;>
    simp only [List.mem_cons, List.not_mem_nil, or_false, Prod.mk.injEq] at hm <;>
    rcases hm with ⟨rfl, rfl⟩ | ⟨rfl, rfl⟩ <;> simp

theorem mem_borderSeeds_of (w h : Nat) (c : Nat × Nat) (h1 : c.1 < w)
    (h2 : c.2 < h) (hb : c.2 = 0 ∨ c.2 = h - 1 ∨ c.1 = 0 ∨ c.1 = w - 1) :
    c ∈ borderSeeds w h := by
  rcases c with ⟨x, y⟩
  simp only at h1 h2 hb
  simp only [borderSeeds, List.mem_append, List.mem_flatten, List.mem_map,
    List.mem_range]
  rcases hb with rfl | rfl | rfl | rfl
  · exact Or.inl ⟨[(x, 0), (x, h - 1)], ⟨x, h1, rfl⟩, by simp⟩
  · exact Or.inl ⟨[(x, 0), (x, h - 1)], ⟨x, h1, rfl⟩, by simp⟩
  · exact Or.inr ⟨[(0, y), (w - 1, y)], ⟨y, h2, rfl⟩, by simp⟩
  · exact Or.inr ⟨[(0, y), (w - 1, y)], ⟨y, h2, rfl⟩, by simp⟩

theorem mem_allCoords (w h : Nat) (c : Nat × Nat) :
    c ∈ allCoords w h ↔ c.1 < w ∧ c.2 < h := by
  rcases c with ⟨x, y⟩
  simp only [allCoords, List.mem_flatten, List.mem_map, List.mem_range]
  constructor
  · rintro ⟨l, ⟨a, ha, rfl⟩, hm⟩
    simp only [List.mem_map, List.mem_range, Prod.mk.injEq] at hm
    rcases hm with ⟨b, hb, rfl, rfl⟩
    exact ⟨ha, hb⟩
  · rintro ⟨hx, hy⟩
    exact ⟨(List.range h).map fun b => (x, b), ⟨x, hx, rfl⟩, by
      simp only [List.mem_map, List.mem_range]
      exact ⟨y, hy, rfl⟩⟩

theorem length_allCoords (w h : Nat) : (allCoords w h).length = w * h := by
  simp only [allCoords, List.length_flatten, List.map_map]
  have hmap : ((List.range w).map
      (List.length ∘ fun x => (List.range h).map fun y => (x, y))) =
      (List.range w).map (fun _ => h) := by
    apply List.map_congr_left
    intro a _
    simp
  rw [hmap]
  simp [List.map_const', List.sum_replicate, smul_eq_mul, Nat.mul_comm]

/-! ## Lemmas: states, steps and the full run -/

theorem visited_len_le (w h : Nat) (st : FillState) (hg : GoodState w h st) :
    st.visited.length ≤ w * h := by
  have hsub : st.visited ⊆ allCoords w h := fun c hc =>
    (mem_allCoords w h c).mpr (hg.bounds c hc)
  have hlen := (List.subperm_of_subset hg.nodupV hsub).length_le
  rw [length_allCoords] at hlen
  exact hlen

theorem queue_len_le (st : FillState) (w h : Nat) (hg : GoodState w h st) :
    st.queue.length ≤ st.visited.length :=
  (List.subperm_of_subset hg.nodupQ hg.qsub).length_le

theorem fillStep_nil (w h : Nat) (bgp : Nat × Nat → Bool) (st : FillState)
    (hqe : st.queue = []) : fillStep w h bgp st = st := by
  unfold fillStep
  rw [hqe]

theorem fillStep_eq (w h : Nat) (bgp : Nat × Nat → Bool) (st : FillState)
    (c : Nat × Nat) (rest : List (Nat × Nat)) (hqe : st.queue = c :: rest) :
    fillStep w h bgp st =
      (nbrs c).foldl (enqueue_if_bg w h bgp) ⟨st.visited, rest⟩ := by
  unfold fillStep
  rw [hqe]

theorem fillRun_succ (w h : Nat) (bgp : Nat × Nat → Bool) (n : Nat)
    (st : FillState) :
    fillRun w h bgp (n + 1) st =
      match st.queue with
      | [] => st
      | _ :: _ => fillRun w h bgp n (fillStep w h bgp st) := rfl

theorem fillStep_good (w h : Nat) (bgp : Nat × Nat → Bool) (st : FillState)
    (hg : GoodState w h st) : GoodState w h (fillStep w h bgp st) := by
  cases hqe : st.queue with
  | nil =>
    rw [fillStep_nil w h bgp st hqe]
    exact hg
  | cons c rest =>
    rw [fillStep_eq w h bgp st c rest hqe]
    apply fold_good
    have hq : (c :: rest).Nodup := hqe ▸ hg.nodupQ
    refine ⟨hg.nodupV, hq.of_cons, hg.bounds, ?_⟩
    intro d hd
    refine hg.qsub d ?_
    rw [hqe]
    exact List.mem_cons_of_mem c hd

theorem fillStep_visited_sub (w h : Nat) (bgp : Nat × Nat → Bool)
    (st : FillState) : st.visited ⊆ (fillStep w h bgp st).visited := by
  cases hqe : st.queue with
  | nil =>
    rw [fillStep_nil w h bgp st hqe]
    exact fun d hd => hd
  | cons c rest =>
    rw [fillStep_eq w h bgp st c rest hqe]
    exact fold_visited_sub w h bgp (nbrs c) ⟨st.visited, rest⟩

theorem fillRun_visited_sub (w h : Nat) (bgp : Nat × Nat → Bool) (n : Nat) :
    ∀ st : FillState, st.visited ⊆ (fillRun w h bgp n st).visited := by
  induction n with
  | zero => exact fun st d hd => hd
  | succ n ih =>
    intro st
    rw [fillRun_succ]
    cases hqe : st.queue with
    | nil => exact fun d hd => hd
    | cons c rest =>
      exact fun d hd =>
        ih (fillStep w h bgp st) (fillStep_visited_sub w h bgp st hd)

theorem fillRun_queue_nil (w h : Nat) (bgp : Nat × Nat → Bool) (n : Nat) :
    ∀ st : FillState, GoodState w h st →
    2 * (w * h - st.visited.length) + st.queue.length ≤ n →
    (fillRun w h bgp n st).queue = [] := by
  induction n with
  | zero =>
    intro st _ hm
    have hq : st.queue.length = 0 := by omega
    exact List.length_eq_zero.mp hq
  | succ n ih =>
    intro st hg hm
    rw [fillRun_succ]
    cases hqe : st.queue with
    | nil => exact hqe
    | cons c rest =>
      apply ih (fillStep w h bgp st) (fillStep_good w h bgp st hg)
      have hql : st.queue.length = rest.length + 1 := by rw [hqe]; rfl
      rw [fillStep_eq w h bgp st c rest hqe]
      have hbal := fold_balance w h bgp (nbrs c) ⟨st.visited, rest⟩
      have hmono := fold_visited_len_mono w h bgp (nbrs c) ⟨st.visited, rest⟩
      have hle : ((nbrs c).foldl (enqueue_if_bg w h bgp)
          ⟨st.visited, rest⟩).visited.length ≤ w * h := by
        apply visited_len_le w h
        rw [← fillStep_eq w h bgp st c rest hqe]
        exact fillStep_good w h bgp st hg
      simp only at hbal hmono hle
      omega

theorem fillStep_sound (w h : Nat) (bgp : Nat × Nat → Bool) (st : FillState)
    (hst : ∀ c ∈ st.visited, ReachesG w h bgp c)
    (hq : ∀ c ∈ st.queue, c ∈ st.visited) :
    ∀ c ∈ (fillStep w h bgp st).visited, ReachesG w h bgp c := by
  cases hqe : st.queue with
  | nil =>
    rw [fillStep_nil w h bgp st hqe]
    exact hst
  | cons c rest =>
    rw [fillStep_eq w h bgp st c rest hqe]
    intro d hd
    rcases fold_visited_cases w h bgp (nbrs c) ⟨st.visited, rest⟩ d hd with
      hmem | ⟨hn, h1, h2, hb⟩
    · exact hst d hmem
    · have hcq : c ∈ st.queue := by rw [hqe]; exact List.mem_cons_self c rest
      exact ReachesG.step c d (hst c (hq c hcq)) (adj_of_mem_nbrs c d hn) h1 h2 hb

theorem fillStep_closed (w h : Nat) (bgp : Nat × Nat → Bool) (st : FillState)
    (hcl : QClosed w h bgp st) : QClosed w h bgp (fillStep w h bgp st) := by
  cases hqe : st.queue with
  | nil =>
    rw [fillStep_nil w h bgp st hqe]
    exact hcl
  | cons c rest =>
    rw [fillStep_eq w h bgp st c rest hqe]
    intro d hd hdq n hn h1 h2 hb
    have hdv : d ∈ st.visited := by
      rcases fold_new_in_queue w h bgp (nbrs c) ⟨st.visited, rest⟩ d hd with
        hmem | hmem
      · exact hmem
      · exact absurd hmem hdq
    by_cases hdc : d = c
    · subst hdc
      exact fold_mem_visited w h bgp (nbrs d) ⟨st.visited, rest⟩ n hn h1 h2 hb
    · by_cases hdr : d ∈ rest
      · exact absurd (fold_queue_sub w h bgp (nbrs c) ⟨st.visited, rest⟩ hdr) hdq
      · have hdnq : d ∉ st.queue := by
          rw [hqe]
          intro hmem
          rcases List.mem_cons.mp hmem with hx | hx
          · exact hdc hx
          · exact hdr hx
        exact fold_visited_sub w h bgp (nbrs c) ⟨st.visited, rest⟩
          (hcl d hdv hdnq n hn h1 h2 hb)

theorem fillRun_sound_closed (w h : Nat) (bgp : Nat × Nat → Bool) (n : Nat) :
    ∀ st : FillState, GoodState w h st →
    (∀ c ∈ st.visited, ReachesG w h bgp c) → QClosed w h bgp st →
    (∀ c ∈ (fillRun w h bgp n st).visited, ReachesG w h bgp c) ∧
      QClosed w h bgp (fillRun w h bgp n st) := by
  induction n with
  | zero => exact fun st _ hs hc => ⟨hs, hc⟩
  | succ n ih =>
    intro st hg hs hc
    rw [fillRun_succ]
    cases hqe : st.queue with
    | nil => exact ⟨hs, hc⟩
    | cons c rest =>
      exact ih (fillStep w h bgp st) (fillStep_good w h bgp st hg)
        (fillStep_sound w h bgp st hs hg.qsub) (fillStep_closed w h bgp st hc)

theorem seed_good (w h : Nat) (bgp : Nat × Nat → Bool) :
    GoodState w h (seedState w h bgp) := by
  apply fold_good
  exact ⟨List.nodup_nil, List.nodup_nil,
    fun c hc => absurd hc (List.not_mem_nil c),
    fun c hc => absurd hc (List.not_mem_nil c)⟩

theorem seed_sound (w h : Nat) (bgp : Nat × Nat → Bool) :
    ∀ c ∈ (seedState w h bgp).visited, ReachesG w h bgp c := by
  intro c hc
  rcases fold_visited_cases w h bgp (borderSeeds w h) ⟨[], []⟩ c hc with
    hmem | ⟨hm, h1, h2, hb⟩
  · exact absurd hmem (List.not_mem_nil c)
  · exact ReachesG.border c h1 h2 (mem_borderSeeds_pos w h c hm) hb

theorem seed_closed (w h : Nat) (bgp : Nat × Nat → Bool) :
    QClosed w h bgp (seedState w h bgp) := by
  intro d hd hdq n hn h1 h2 hb
  rcases fold_new_in_queue w h bgp (borderSeeds w h) ⟨[], []⟩ d hd with
    hmem | hmem
  · exact absurd hmem (List.not_mem_nil d)
  · exact absurd hmem hdq

theorem floodState_queue_nil (w h : Nat) (bgp : Nat × Nat → Bool) :
    (floodState w h bgp).queue = [] := by
  apply fillRun_queue_nil w h bgp (2 * w * h) (seedState w h bgp)
    (seed_good w h bgp)
  have h1 := queue_len_le (seedState w h bgp) w h (seed_good w h bgp)
  have h2 := visited_len_le w h (seedState w h bgp) (seed_good w h bgp)
  rw [Nat.mul_assoc 2 w h]
  omega

/-- The central flood-fill correctness lemma: a coordinate is in the final
visited list iff it is background-connected to a background border pixel. -/
theorem mem_floodState_iff (w h : Nat) (bgp : Nat × Nat → Bool) (c : Nat × Nat) :
    c ∈ (floodState w h bgp).visited ↔ ReachesG w h bgp c := by
  constructor
  · intro hc
    exact (fillRun_sound_closed w h bgp (2 * w * h) (seedState w h bgp)
      (seed_good w h bgp) (seed_sound w h bgp) (seed_closed w h bgp)).1 c hc
  · intro hr
    induction hr with
    | border c h1 h2 hb hbg =>
      have h0 : c ∈ (seedState w h bgp).visited :=
        fold_mem_visited w h bgp (borderSeeds w h) ⟨[], []⟩ c
          (mem_borderSeeds_of w h c h1 h2 hb) h1 h2 hbg
      exact fillRun_visited_sub w h bgp (2 * w * h) (seedState w h bgp) h0
    | step c c' hr hadj h1 h2 hb ih =>
      have hcl := (fillRun_sound_closed w h bgp (2 * w * h) (seedState w h bgp)
        (seed_good w h bgp) (seed_sound w h bgp) (seed_closed w h bgp)).2
      have hq0 := floodState_queue_nil w h bgp
      refine hcl c ih ?_ c' (mem_nbrs_of_adj c c' hadj) h1 h2 hb
      unfold floodState at hq0
      rw [hq0]
      exact List.not_mem_nil c

theorem fillRun_good (w h : Nat) (bgp : Nat × Nat → Bool) (n : Nat) :
    ∀ st : FillState, GoodState w h st →
    GoodState w h (fillRun w h bgp n st) := by
  induction n with
  | zero => exact fun st hg => hg
  | succ n ih =>
    intro st hg
    rw [fillRun_succ]
    cases hqe : st.queue with
    | nil => exact hg
    | cons c rest => exact ih (fillStep w h bgp st) (fillStep_good w h bgp st hg)

/-! ## Lemmas: monotonicity in the tolerance -/

theorem ReachesG_mono (w h : Nat) (bgp1 bgp2 : Nat × Nat → Bool)
    (hb : ∀ c, bgp1 c = true → bgp2 c = true) (c : Nat × Nat)
    (hr : ReachesG w h bgp1 c) : ReachesG w h bgp2 c := by
  induction hr with
  | border c h1 h2 hpos hbg => exact ReachesG.border c h1 h2 hpos (hb c hbg)
  | step c c' hr hadj h1 h2 hbg ih =>
    exact ReachesG.step c c' ih hadj h1 h2 (hb c' hbg)

theorem is_near_white_mono (t1 t2 : Nat) (hle : t1 ≤ t2) (p : Pixel)
    (hw : is_near_white t1 p = true) : is_near_white t2 p = true := by
  unfold is_near_white at hw ⊢
  simp only [Bool.and_eq_true, decide_eq_true_eq] at hw ⊢
  omega

theorem bg_candidates_sub (img : Img) (t1 t2 : Nat) (hle : t1 ≤ t2) :
    ∀ p ∈ bg_candidates img t1, p ∈ bg_candidates img t2 := by
  intro p hp
  unfold bg_candidates at hp ⊢
  rw [List.mem_filter] at hp ⊢
  exact ⟨hp.1, is_near_white_mono t1 t2 hle p hp.2⟩

theorem close_to_mono (t1 t2 : Nat) (hle : t1 ≤ t2) (bg p : Pixel)
    (hc : close_to t1 bg p = true) : close_to t2 bg p = true := by
  unfold close_to at hc ⊢
  simp only [Bool.and_eq_true, decide_eq_true_eq] at hc ⊢
  omega

theorem is_bg_mono (t1 t2 : Nat) (hle : t1 ≤ t2) (c1 c2 : List Pixel)
    (hsub : ∀ p ∈ c1, p ∈ c2) (p : Pixel) (hb : is_bg t1 c1 p = true) :
    is_bg t2 c2 p = true := by
  unfold is_bg at hb ⊢
  simp only [Bool.or_eq_true, List.any_eq_true] at hb ⊢
  rcases hb with ⟨bg, hm, hcl⟩ | hw
  · exact Or.inl ⟨bg, hsub bg hm, close_to_mono t1 t2 hle bg p hcl⟩
  · exact Or.inr (is_near_white_mono t1 t2 hle p hw)

theorem bgAt_mono (img : Img) (t1 t2 : Nat) (hle : t1 ≤ t2) (c : Nat × Nat)
    (hb : bgAt img t1 c = true) : bgAt img t2 c = true :=
  is_bg_mono t1 t2 hle _ _ (bg_candidates_sub img t1 t2 hle) _ hb

/-! ## Claim theorems -/

/-- C1: for an image with a non-empty reference background set, a pixel is in
the visited mask iff there is a 4-connected path of background-classified
pixels from it to a background-classified border pixel; in particular every
pixel whose alpha the transparency pass sets to 0 has such a path. -/
theorem visited_iff_border_path (img : Img) (tol : Nat)
    (_hne : bg_candidates img tol ≠ []) :
    (∀ x y : Nat, ((x, y) ∈ flood_visited img tol ↔ Reaches img tol x y)) ∧
    (∀ x y : Nat, x < img.w → y < img.h →
      ((applyAlpha (toRGBA img) (flood_visited img tol)).pix x y).a = 0 →
      Reaches img tol x y) := by
  have hiff : ∀ x y : Nat,
      ((x, y) ∈ flood_visited img tol ↔ Reaches img tol x y) := fun x y =>
    mem_floodState_iff img.w img.h (bgAt img tol) (x, y)
  refine ⟨hiff, ?_⟩
  intro x y hx hy ha
  by_cases hmem : (x, y) ∈ flood_visited img tol
  · exact (hiff x y).mp hmem
  · exfalso
    simp only [applyAlpha] at ha
    rw [if_neg hmem] at ha
    simp [toRGBA] at ha

/-- C1 witness: a concrete 2×2 all-white image has a non-empty reference set,
and the characterisation holds for it. -/
theorem visited_iff_border_path_witness :
    bg_candidates whiteImg2 15 ≠ [] ∧
    ((∀ x y : Nat,
        ((x, y) ∈ flood_visited whiteImg2 15 ↔ Reaches whiteImg2 15 x y)) ∧
      (∀ x y : Nat, x < whiteImg2.w → y < whiteImg2.h →
        ((applyAlpha (toRGBA whiteImg2)
          (flood_visited whiteImg2 15)).pix x y).a = 0 →
        Reaches whiteImg2 15 x y)) :=
  ⟨by decide, visited_iff_border_path whiteImg2 15 (by decide)⟩

/-- C4: `is_bg` is true iff the pixel is within the per-channel tolerance of
some reference color or independently near-white; the alpha channel plays no
role. -/
theorem is_bg_characterisation (tol : Nat) (cands : List Pixel) (p : Pixel)
    (a' : Nat) :
    (is_bg tol cands p = true ↔
      ((∃ ref ∈ cands, Nat.dist p.r ref.r ≤ tol ∧ Nat.dist p.g ref.g ≤ tol ∧
          Nat.dist p.b ref.b ≤ tol) ∨
        (255 - tol ≤ p.r ∧ 255 - tol ≤ p.g ∧ 255 - tol ≤ p.b))) ∧
    is_bg tol cands { p with a := a' } = is_bg tol cands p := by
  constructor
  · unfold is_bg close_to is_near_white
    simp [List.any_eq_true, Bool.or_eq_true, Bool.and_eq_true,
      decide_eq_true_eq, and_assoc]
  · rfl

/-- C5: for tolerances `t1 < t2` whose runs both have a non-empty reference
set, the visited set at `t1` is contained in the visited set at `t2`. -/
theorem flood_visited_tol_mono (img : Img) (t1 t2 : Nat) (hlt : t1 < t2)
    (_h1 : bg_candidates img t1 ≠ []) (_h2 : bg_candidates img t2 ≠ []) :
    ∀ c ∈ flood_visited img t1, c ∈ flood_visited img t2 := by
  intro c hc
  have hr := (mem_floodState_iff img.w img.h (bgAt img t1) c).mp hc
  exact (mem_floodState_iff img.w img.h (bgAt img t2) c).mpr
    (ReachesG_mono img.w img.h (bgAt img t1) (bgAt img t2)
      (fun d => bgAt_mono img t1 t2 (Nat.le_of_lt hlt) d) c hr)

/-- C5 witness: at the 2×2 all-white image with tolerances 10 < 15, both
reference sets are non-empty and a concretely visited pixel transfers. -/
theorem flood_visited_tol_mono_witness :
    10 < 15 ∧ bg_candidates whiteImg2 10 ≠ [] ∧
      bg_candidates whiteImg2 15 ≠ [] ∧
      ((0, 0) : Nat × Nat) ∈ flood_visited whiteImg2 15 :=
  ⟨by decide, by decide, by decide,
    flood_visited_tol_mono whiteImg2 10 15 (by decide) (by decide) (by decide)
      (0, 0) (by decide)⟩

/-- C7: the transparency pass zeroes the alpha of every visited pixel while
keeping its RGB channels, and leaves every unvisited pixel (and the buffer's
dimensions) completely unchanged. -/
theorem applyAlpha_frame (img : Img) (vis : List (Nat × Nat)) (x y : Nat) :
    ((x, y) ∈ vis →
      ((applyAlpha img vis).pix x y).r = (img.pix x y).r ∧
      ((applyAlpha img vis).pix x y).g = (img.pix x y).g ∧
      ((applyAlpha img vis).pix x y).b = (img.pix x y).b ∧
      ((applyAlpha img vis).pix x y).a = 0) ∧
    ((x, y) ∉ vis → (applyAlpha img vis).pix x y = img.pix x y) ∧
    (applyAlpha img vis).w = img.w ∧ (applyAlpha img vis).h = img.h := by
  unfold applyAlpha
  refine ⟨?_, ?_, rfl, rfl⟩
  · intro hm
    simp [hm]
  · intro hm
    simp [hm]

/-- C7 witness: concrete instantiation on the 2×2 white image with visited
set `[(0,0)]`. -/
theorem applyAlpha_frame_witness :
    (((0, 0) : Nat × Nat) ∈ [((0, 0) : Nat × Nat)] ∧
      ((applyAlpha whiteImg2 [(0, 0)]).pix 0 0).a = 0) ∧
    (((1, 0) : Nat × Nat) ∉ [((0, 0) : Nat × Nat)] ∧
      (applyAlpha whiteImg2 [(0, 0)]).pix 1 0 = whiteImg2.pix 1 0) :=
  ⟨⟨by decide,
    ((applyAlpha_frame whiteImg2 [(0, 0)] 0 0).1 (by decide)).2.2.2⟩,
   ⟨by decide, (applyAlpha_frame whiteImg2 [(0, 0)] 1 0).2.1 (by decide)⟩⟩

/-- C8: the flood fill terminates on every image: with fuel `2*w*h` the queue
is provably empty (each pixel is enqueued at most once, so the visited list is
duplicate-free). -/
theorem flood_fill_terminates (img : Img) (tol : Nat) :
    (floodFinal img tol).queue = [] ∧ (flood_visited img tol).Nodup :=
  ⟨floodState_queue_nil img.w img.h (bgAt img tol),
   (fillRun_good img.w img.h (bgAt img tol) (2 * img.w * img.h)
     (seedState img.w img.h (bgAt img tol))
     (seed_good img.w img.h (bgAt img tol))).nodupV⟩

/-- C3: when no corner sample is near-white (for every corner, some channel
is below `255 - tol`), `remove_background` returns `none` (the
`NoEligibleBackground` skip); no transparency or crop output is produced. -/
theorem no_near_white_corner_skips (img : Img) (tol : Nat)
    (hc : ∀ p ∈ corner_pixels img,
      ¬(255 - tol ≤ p.r ∧ 255 - tol ≤ p.g ∧ 255 - tol ≤ p.b)) :
    remove_background img tol = none := by
  unfold remove_background
  rw [if_pos]
  unfold bg_candidates
  rw [List.filter_eq_nil_iff]
  intro p hp
  unfold is_near_white
  simp only [Bool.and_eq_true, decide_eq_true_eq]
  exact fun hw => hc p hp ⟨hw.1.1, hw.1.2, hw.2⟩

/-- C3 witness: the 1×1 black image has no near-white corner, and the call
returns `none`. -/
theorem no_near_white_corner_skips_witness :
    (∀ p ∈ corner_pixels blackImg1,
      ¬(255 - 15 ≤ p.r ∧ 255 - 15 ≤ p.g ∧ 255 - 15 ≤ p.b)) ∧
    remove_background blackImg1 15 = none :=
  ⟨by decide, no_near_white_corner_skips blackImg1 15 (by decide)⟩

set_option maxRecDepth 100000 in
/-- C2 counterexample: on the 10×10 all-white image at tolerance 15 the flood
fill marks every pixel (the check verifies every output alpha is 0), yet
`remove_background` returns a present 10×10 buffer, not the absent/`None`
result the claim asserts (`whiteImg10_check` returns `false` on `none`). -/
theorem whiteImg10_not_skipped : whiteImg10_check = true := by rfl

/-- C2 amended: when the reference background set is non-empty and the
transparency pass leaves no pixel with non-zero alpha, `remove_background`
returns `some` of the full, uncropped, fully transparent buffer (the `getbbox`
result is `None`, so the crop is skipped); it does not return the absent
result. -/
theorem empty_after_removal_returns_full (img : Img) (tol : Nat)
    (hne : bg_candidates img tol ≠ [])
    (hall : ∀ x, x < img.w → ∀ y, y < img.h →
      ((applyAlpha (toRGBA img) (flood_visited img tol)).pix x y).a = 0) :
    remove_background img tol =
      some (applyAlpha (toRGBA img) (flood_visited img tol)) := by
  unfold remove_background
  rw [if_neg hne]
  have hop : opaqueList (applyAlpha (toRGBA img) (flood_visited img tol)) = [] := by
    unfold opaqueList
    rw [List.filter_eq_nil_iff]
    intro c hc
    have hb := (mem_allCoords _ _ c).mp hc
    simp only [decide_eq_true_eq, Decidable.not_not]
    exact hall c.1 hb.1 c.2 hb.2
  have hbb : getbbox (applyAlpha (toRGBA img) (flood_visited img tol)) = none := by
    unfold getbbox
    rw [hop]
  rw [hbb]

set_option maxRecDepth 200000 in
/-- C2 amended witness: the 10×10 all-white image satisfies both hypotheses
and returns the full transparent buffer. -/
theorem empty_after_removal_returns_full_witness :
    bg_candidates whiteImg10 15 ≠ [] ∧
    remove_background whiteImg10 15 =
      some (applyAlpha (toRGBA whiteImg10) (flood_visited whiteImg10 15)) :=
  ⟨by decide, empty_after_removal_returns_full whiteImg10 15 (by decide)
    (by decide)⟩

set_option maxRecDepth 100000 in
/-- C6: the 10×10 image with a 1-pixel white border and an 8×8 solid red
interior, at tolerance 15, yields an 8×8 buffer that is entirely opaque red
`(255, 0, 0, 255)` — the transparent border has been cropped away. -/
theorem bordered_red_cropped_to_interior : borderImg10_check = true := by rfl

/-- C10: any buffer returned by `remove_background` has every alpha exactly 0
or exactly 255, and (for some fixed crop offset `(dx, dy)`) alpha is 0 exactly
on the pixels the flood fill visited. -/
theorem output_alpha_binary (img : Img) (tol : Nat) (out : Img)
    (hout : remove_background img tol = some out) :
    ∃ dx dy : Nat, ∀ x, x < out.w → ∀ y, y < out.h →
      (((out.pix x y).a = 0 ∨ (out.pix x y).a = 255) ∧
        ((out.pix x y).a = 0 ↔ (x + dx, y + dy) ∈ flood_visited img tol)) := by
  unfold remove_background at hout
  by_cases hne : bg_candidates img tol = []
  · rw [if_pos hne] at hout
    exact absurd hout (by simp)
  · rw [if_neg hne] at hout
    rcases hbb : getbbox (applyAlpha (toRGBA img) (flood_visited img tol)) with
      _ | ⟨l, t, r, b⟩
    · rw [hbb] at hout
      have hEq := Option.some.inj hout
      subst hEq
      refine ⟨0, 0, ?_⟩
      intro x hx y hy
      simp only [applyAlpha, Nat.add_zero]
      by_cases hmem : (x, y) ∈ flood_visited img tol
      · simp [hmem, toRGBA]
      · simp [hmem, toRGBA]
    · rw [hbb] at hout
      have hEq := Option.some.inj hout
      subst hEq
      refine ⟨l, t, ?_⟩
      intro x hx y hy
      simp only [cropImg, applyAlpha]
      by_cases hmem : (x + l, y + t) ∈ flood_visited img tol
      · simp [hmem, toRGBA]
      · simp [hmem, toRGBA]

set_option maxRecDepth 100000 in
/-- C10 witness: instantiated at the 2×2 all-white image, whose run returns
the full transparent buffer. -/
theorem output_alpha_binary_witness :
    remove_background whiteImg2 15 =
      some ((remove_background whiteImg2 15).getD dImg) ∧
    (∃ dx dy : Nat,
      ∀ x, x < ((remove_background whiteImg2 15).getD dImg).w →
      ∀ y, y < ((remove_background whiteImg2 15).getD dImg).h →
      (((((remove_background whiteImg2 15).getD dImg).pix x y).a = 0 ∨
          (((remove_background whiteImg2 15).getD dImg).pix x y).a = 255) ∧
        ((((remove_background whiteImg2 15).getD dImg).pix x y).a = 0 ↔
          (x + dx, y + dy) ∈ flood_visited whiteImg2 15))) :=
  ⟨by rfl, output_alpha_binary whiteImg2 15 _ (by rfl)⟩

end CropWhitespace
